import Mathlib

/-!
Shallow embedding of the regularized minimal-energy tensor-product fitting
engine (`smt/rmt.py`) and proofs about its specification.

Conventions of the embedding:
* machine floats become exact rationals `ℚ`;
* a coefficient vector is a function `Fin m → ℚ`; per-training-order sparse
  Jacobians become dense `Matrix (Fin nt) (Fin m) ℚ` (the sparse format is a
  storage optimization with the same linear action);
* the dictionary `full_jac_dict` keyed by derivative order, together with the
  per-order target column `yt_dict[kx]`, becomes a list of blocks, one block
  per derivative order, traversed in dictionary order;
* the external collaborators (linear solver, line search, low-level Jacobian
  assembly kernel) are parameters of the driver, exactly as they are pluggable
  in the source;
* `np.linalg.norm` is the Euclidean norm, whose square is rational; norms are
  therefore compared through their squares (`norm < c ↔ normSq < c^2` for
  `c ≥ 0`), which is exact;
* the exponent `p` (`approx_norm`) is embedded as a natural number and the
  elementwise powers `** (p-1)`, `** (p-2)` use truncated subtraction in the
  exponent, matching the source for every `p ≥ 2` (the residual powers are
  only meaningful there, cf. the spec's open question on non-integer `p`).
-/

namespace RMT

/-- A coefficient-space vector with `m` degrees of freedom. -/
abbrev Vec (m : ℕ) := Fin m → ℚ

/-- One approximation block, i.e. one entry of `full_jac_dict` paired with its
target column from `yt_dict`: the number of training points `nt`, the Jacobian
`full_jac`, and the target vector `yt`. -/
abbrev Blk (m : ℕ) := Σ nt : ℕ, Matrix (Fin nt) (Fin m) ℚ × (Fin nt → ℚ)

/-- Elementwise power of a vector, as in `(full_jac * sol - yt) ** e`. -/
def vpow {k : ℕ} (v : Fin k → ℚ) (e : ℕ) : Fin k → ℚ := fun i => v i ^ e

/-- `RMT._opt_func`: the p-norm objective
`0.5 sol·(H sol) + Σ_kx 0.5 Σ_i ((Jac sol - yt) ** p)_i`. -/
def opt_func {m : ℕ} (sol : Vec m) (p : ℕ) (full_hess : Matrix (Fin m) (Fin m) ℚ)
    (blocks : List (Blk m)) : ℚ :=
  blocks.foldl
    (fun acc b => acc + (1 : ℚ)/2 * Finset.univ.sum (fun i => (b.2.1.mulVec sol - b.2.2) i ^ p))
    ((1 : ℚ)/2 * Matrix.dotProduct sol (full_hess.mulVec sol))

/-- `RMT._opt_grad`: starts from `full_hess * sol` and accumulates
`0.5 * full_jac_T * p * (full_jac * sol - yt) ** (p-1)` over the blocks. -/
def opt_grad {m : ℕ} (sol : Vec m) (p : ℕ) (full_hess : Matrix (Fin m) (Fin m) ℚ)
    (blocks : List (Blk m)) : Vec m :=
  blocks.foldl
    (fun g b =>
      g + ((1 : ℚ)/2) • b.2.1.transpose.mulVec
        ((p : ℚ) • vpow (b.2.1.mulVec sol - b.2.2) (p - 1)))
    (full_hess.mulVec sol)

/-- Euclidean norm squared, the square of `np.linalg.norm`. -/
def euclid_norm_sq {k : ℕ} (v : Fin k → ℚ) : ℚ := Finset.univ.sum fun i => v i ^ 2

/-- `RMT._opt_norm` squared: the source returns `np.linalg.norm(grad)`; we
carry its (rational) square. -/
def opt_norm_sq {m : ℕ} (sol : Vec m) (p : ℕ) (full_hess : Matrix (Fin m) (Fin m) ℚ)
    (blocks : List (Blk m)) : ℚ :=
  euclid_norm_sq (opt_grad sol p full_hess blocks)

/-- `RMT._opt_hess_mtx`: starts from `full_hess` and accumulates
`0.5 * full_jac_T * diag(p*(p-1)*(full_jac*sol-yt)**(p-2)) * full_jac`. -/
def opt_hess_mtx {m : ℕ} (sol : Vec m) (p : ℕ) (full_hess : Matrix (Fin m) (Fin m) ℚ)
    (blocks : List (Blk m)) : Matrix (Fin m) (Fin m) ℚ :=
  blocks.foldl
    (fun hess b =>
      hess + ((1 : ℚ)/2) •
        (b.2.1.transpose *
          Matrix.diagonal (fun i =>
            (p : ℚ) * ((p : ℚ) - 1) * vpow (b.2.1.mulVec sol - b.2.2) (p - 2) i) *
          b.2.1))
    full_hess

/-- `RMT._opt_hess_op`: the matrix-free operator built when `use_mtx_free` is
set.  Its `dot` method computes `full_hess * other` and accumulates
`0.5 * full_jac_T * (diag_vec[kx] * (full_jac * other))`, where
`diag_vec[kx] = p*(p-1)*(full_jac*sol-yt)**(p-2)` is precomputed. -/
def opt_hess_op_dot {m : ℕ} (sol : Vec m) (p : ℕ) (full_hess : Matrix (Fin m) (Fin m) ℚ)
    (blocks : List (Blk m)) (other : Vec m) : Vec m :=
  blocks.foldl
    (fun vec b =>
      vec + ((1 : ℚ)/2) • b.2.1.transpose.mulVec
        ((fun i => (p : ℚ) * ((p : ℚ) - 1) * vpow (b.2.1.mulVec sol - b.2.2) (p - 2) i) *
          b.2.1.mulVec other))
    (full_hess.mulVec other)

/-- `RMT._opt_hess_mtx_2`: the Gauss-Newton system matrix at `p = 2`; starts
from `full_hess` and accumulates `0.5 * p * (p-1) * full_jac_T * full_jac`
with the local constant `p = 2`. -/
def opt_hess_mtx_2 {m : ℕ} (full_hess : Matrix (Fin m) (Fin m) ℚ)
    (blocks : List (Blk m)) : Matrix (Fin m) (Fin m) ℚ :=
  blocks.foldl
    (fun hess b =>
      hess + ((1 : ℚ)/2 * 2 * (2 - 1)) • (b.2.1.transpose * b.2.1))
    full_hess

/-- One iteration of the Newton loop body in `RMT._solve` for one output
column: assemble `_opt_hess` and the negative `_opt_grad`, solve for the
Newton direction with the (external, pluggable) linear solver, and take the
step returned by the (external, pluggable) line search, which receives the
current iterate, the direction, and the objective/gradient callables. -/
def newton_step {m : ℕ}
    (solveLin : Matrix (Fin m) (Fin m) ℚ → Vec m → Vec m)
    (ls : Vec m → Vec m → (Vec m → ℚ) → (Vec m → Vec m) → Vec m)
    (p : ℕ) (full_hess : Matrix (Fin m) (Fin m) ℚ) (blocks : List (Blk m))
    (sol : Vec m) : Vec m :=
  let mtx := opt_hess_mtx sol p full_hess blocks
  let rhs := -(opt_grad sol p full_hess blocks)
  let d_sol := solveLin mtx rhs
  ls sol d_sol (fun x => opt_func x p full_hess blocks) (fun x => opt_grad x p full_hess blocks)

/-- The `for nln_iter in range(max_nln_iter)` loop of `RMT._solve`: run up to
`fuel` iterations of `stepf`, breaking after an iteration whose post-step
state satisfies `conv` (the `norm < 1e-16` check).  Returns the final state
and the number of iterations that were executed. -/
def newton_loop {σ : Type} (stepf : σ → σ) (conv : σ → Bool) : ℕ → σ → σ × ℕ
  | 0, s => (s, 0)
  | n + 1, s =>
    let t := stepf s
    if conv t then (t, 1)
    else
      let r := newton_loop stepf conv n t
      (r.1, r.2 + 1)

/-- The convergence test `norm < 1e-16` of `RMT._solve`, stated exactly on the
squared Euclidean norm: `norm < 10⁻¹⁶ ↔ norm² < 10⁻³²`. -/
def conv_check {m : ℕ} (p : ℕ) (full_hess : Matrix (Fin m) (Fin m) ℚ)
    (blocks : List (Blk m)) (s : Vec m) : Bool :=
  decide (opt_norm_sq s p full_hess blocks < 1 / 10 ^ 32)

/-- The bootstrap ("initial linear problem") solve of `RMT._solve` for one
output column: the system matrix is `_opt_hess_2` and the right-hand side is
`-_opt_grad(0, 2, ...)`, i.e. the negative `p = 2` gradient at the zero
coefficient vector (`sol` is initialized to zeros). -/
def bootstrap_sol {m : ℕ}
    (solveLin : Matrix (Fin m) (Fin m) ℚ → Vec m → Vec m)
    (full_hess : Matrix (Fin m) (Fin m) ℚ) (blocks : List (Blk m)) : Vec m :=
  solveLin (opt_hess_mtx_2 full_hess blocks) (-(opt_grad 0 2 full_hess blocks))

/-- `RMT._solve` for one output column: the bootstrap linear solve followed by
the Newton loop with exponent `p = approx_norm` and budget
`maxIter = max_nln_iter`.  Returns the coefficient column and the number of
Newton iterations executed. -/
def solve {m : ℕ}
    (solveLin : Matrix (Fin m) (Fin m) ℚ → Vec m → Vec m)
    (ls : Vec m → Vec m → (Vec m → ℚ) → (Vec m → Vec m) → Vec m)
    (p : ℕ) (full_hess : Matrix (Fin m) (Fin m) ℚ) (blocks : List (Blk m))
    (maxIter : ℕ) : Vec m × ℕ :=
  newton_loop (newton_step solveLin ls p full_hess blocks) (conv_check p full_hess blocks)
    maxIter (bootstrap_sol solveLin full_hess blocks)

/-- Folding accumulation (`x += term` in a loop) equals the initial value plus
the sum of the terms. -/
theorem foldl_add_map {α β : Type} [AddCommMonoid β] (f : α → β) :
    ∀ (l : List α) (init : β),
      l.foldl (fun acc b => acc + f b) init = init + (l.map f).sum
  | [], init => by simp
  | b :: l, init => by
    rw [List.foldl_cons, foldl_add_map f l (init + f b), List.map_cons, List.sum_cons, add_assoc]

/-- Summing elementwise negations negates the sum. -/
theorem map_neg_sum {α β : Type} [AddCommGroup β] (f : α → β) :
    ∀ l : List α, (l.map (fun a => -(f a))).sum = -(l.map f).sum
  | [] => by simp
  | a :: l => by
    rw [List.map_cons, List.sum_cons, map_neg_sum f l, List.map_cons, List.sum_cons, neg_add]

/-- Pulling a common scalar factor out of a sum of terms. -/
theorem map_smul_sum {α β : Type} [AddCommMonoid β] [DistribSMul ℚ β] (c : ℚ) (f : α → β) :
    ∀ l : List α, (l.map (fun a => c • f a)).sum = c • (l.map f).sum
  | [] => by simp
  | a :: l => by
    rw [List.map_cons, List.sum_cons, map_smul_sum c f l, List.map_cons, List.sum_cons, smul_add]

/-- The spec's gradient formula
`∇F(sol) = H sol + 0.5 p Σ_k Jac_k^T (Jac_k sol − target_k)^(p−1)`. -/
def grad_spec {m : ℕ} (sol : Vec m) (p : ℕ) (full_hess : Matrix (Fin m) (Fin m) ℚ)
    (blocks : List (Blk m)) : Vec m :=
  full_hess.mulVec sol +
    ((1 : ℚ)/2 * p) •
      (blocks.map (fun b => b.2.1.transpose.mulVec (vpow (b.2.1.mulVec sol - b.2.2) (p - 1)))).sum

/-- C4: for every coefficient vector `sol`, exponent `p`, regularization
Hessian `H`, Jacobian set and target set, the gradient computed by
`RMT._opt_grad` equals `H·sol + 0.5·p·Σ_k Jac_k^T (Jac_k·sol − target_k)^(p−1)`
(powers elementwise), and the gradient norm reported by `RMT._opt_norm` is the
Euclidean norm of that gradient (norms compared through their rational
squares, which is exact since both sides are nonnegative). -/
theorem C4_opt_grad_formula {m : ℕ} (sol : Vec m) (p : ℕ)
    (full_hess : Matrix (Fin m) (Fin m) ℚ) (blocks : List (Blk m)) :
    opt_grad sol p full_hess blocks = grad_spec sol p full_hess blocks ∧
    opt_norm_sq sol p full_hess blocks = euclid_norm_sq (grad_spec sol p full_hess blocks) := by
  have hmain : opt_grad sol p full_hess blocks = grad_spec sol p full_hess blocks := by
    rw [opt_grad, foldl_add_map, grad_spec]
    congr 1
    have hterm : ∀ b : Blk m,
        ((1 : ℚ)/2) • b.2.1.transpose.mulVec
            ((p : ℚ) • vpow (b.2.1.mulVec sol - b.2.2) (p - 1)) =
          ((1 : ℚ)/2 * p) •
            b.2.1.transpose.mulVec (vpow (b.2.1.mulVec sol - b.2.2) (p - 1)) := by
      intro b
      rw [Matrix.mulVec_smul, smul_smul]
    simp only [hterm]
    exact map_smul_sum _ _ blocks
  exact ⟨hmain, by rw [opt_norm_sq, hmain]⟩

/-- C7: the matrix-free Hessian operator (`RMT._opt_hess_op`, used when
`use_mtx_free` is set) and the explicit sparse Hessian matrix
(`RMT._opt_hess_mtx`, used otherwise) implement the identical linear action:
for every vector `v`, the matrix-free matrix-vector product equals the
explicit matrix times `v`. -/
theorem C7_hess_op_matches_mtx {m : ℕ} (sol : Vec m) (p : ℕ)
    (full_hess : Matrix (Fin m) (Fin m) ℚ) (blocks : List (Blk m)) (v : Vec m) :
    opt_hess_op_dot sol p full_hess blocks v = (opt_hess_mtx sol p full_hess blocks).mulVec v := by
  rw [opt_hess_op_dot, opt_hess_mtx]
  induction blocks generalizing full_hess with
  | nil => simp
  | cons b l ih =>
    rw [List.foldl_cons, List.foldl_cons]
    have hstep :
        full_hess.mulVec v + ((1 : ℚ)/2) • b.2.1.transpose.mulVec
            ((fun i => (p : ℚ) * ((p : ℚ) - 1) * vpow (b.2.1.mulVec sol - b.2.2) (p - 2) i) *
              b.2.1.mulVec v) =
          (full_hess + ((1 : ℚ)/2) •
            (b.2.1.transpose *
              Matrix.diagonal (fun i =>
                (p : ℚ) * ((p : ℚ) - 1) * vpow (b.2.1.mulVec sol - b.2.2) (p - 2) i) *
              b.2.1)).mulVec v := by
      rw [Matrix.add_mulVec, Matrix.smul_mulVec_assoc]
      congr 2
      rw [Matrix.mul_assoc, ← Matrix.mulVec_mulVec, ← Matrix.mulVec_mulVec]
      have hdiag :
          (fun i => (p : ℚ) * ((p : ℚ) - 1) * vpow (b.2.1.mulVec sol - b.2.2) (p - 2) i) *
              b.2.1.mulVec v =
            (Matrix.diagonal fun i =>
                (p : ℚ) * ((p : ℚ) - 1) * vpow (b.2.1.mulVec sol - b.2.2) (p - 2) i).mulVec
              (b.2.1.mulVec v) := by
        funext i
        rw [Matrix.mulVec_diagonal]
        rfl
      rw [hdiag]
    rw [hstep, ih]

/-- C3: for every fit and every output column, the coefficient column computed
by `RMT._solve` is the result of running the Newton phase (for any
`max_nln_iter`, including 0) from the solution of a single bootstrap linear
solve whose system matrix is `H + Σ_k Jac_k^T Jac_k` (the Gauss-Newton system
at `p = 2`, assembled by `RMT._opt_hess_mtx_2`) and whose right-hand side is
`−∇F(0)`, the negative `p = 2` gradient at the zero coefficient vector, which
in closed form is `Σ_k Jac_k^T target_k`. -/
theorem C3_bootstrap_system {m : ℕ}
    (solveLin : Matrix (Fin m) (Fin m) ℚ → Vec m → Vec m)
    (ls : Vec m → Vec m → (Vec m → ℚ) → (Vec m → Vec m) → Vec m)
    (p : ℕ) (full_hess : Matrix (Fin m) (Fin m) ℚ) (blocks : List (Blk m)) (maxIter : ℕ) :
    solve solveLin ls p full_hess blocks maxIter =
      newton_loop (newton_step solveLin ls p full_hess blocks) (conv_check p full_hess blocks)
        maxIter
        (solveLin (full_hess + (blocks.map (fun b => b.2.1.transpose * b.2.1)).sum)
          ((blocks.map (fun b => b.2.1.transpose.mulVec b.2.2)).sum)) ∧
    (blocks.map (fun b => b.2.1.transpose.mulVec b.2.2)).sum = -(opt_grad 0 2 full_hess blocks) := by
  have hhess : opt_hess_mtx_2 full_hess blocks =
      full_hess + (blocks.map (fun b => b.2.1.transpose * b.2.1)).sum := by
    rw [opt_hess_mtx_2]
    simp only [show ((1 : ℚ)/2 * 2 * (2 - 1)) = 1 by norm_num, one_smul]
    exact foldl_add_map _ blocks full_hess
  have hgrad : opt_grad 0 2 full_hess blocks =
      -(blocks.map (fun b => b.2.1.transpose.mulVec b.2.2)).sum := by
    rw [opt_grad, foldl_add_map]
    have hterm : ∀ b : Blk m,
        ((1 : ℚ)/2) • b.2.1.transpose.mulVec
            (((2 : ℕ) : ℚ) • vpow (b.2.1.mulVec (0 : Vec m) - b.2.2) (2 - 1)) =
          -(b.2.1.transpose.mulVec b.2.2) := by
      intro b
      have hv : vpow (b.2.1.mulVec (0 : Vec m) - b.2.2) (2 - 1) = -b.2.2 := by
        funext i
        simp [vpow, Matrix.mulVec_zero]
      rw [hv, Matrix.mulVec_smul, smul_smul, Matrix.mulVec_neg]
      norm_num
    simp only [hterm]
    rw [map_neg_sum, Matrix.mulVec_zero, zero_add]
  refine ⟨?_, by rw [hgrad, neg_neg]⟩
  rw [solve, bootstrap_sol, hhess, hgrad, neg_neg]

/-- Characterization of the Newton loop: the iteration count never exceeds the
budget, the final state is the step function iterated count times, and the
budget is underrun exactly when some post-step state within the budget passes
the convergence test. -/
theorem newton_loop_spec {σ : Type} (stepf : σ → σ) (conv : σ → Bool) :
    ∀ (n : ℕ) (s : σ),
      (newton_loop stepf conv n s).2 ≤ n ∧
      (newton_loop stepf conv n s).1 = stepf^[(newton_loop stepf conv n s).2] s ∧
      ((newton_loop stepf conv n s).2 < n ↔
        ∃ i, 1 ≤ i ∧ i < n ∧ conv (stepf^[i] s) = true)
  | 0, s => by
    refine ⟨le_refl _, rfl, ?_⟩
    simp [newton_loop]
  | n + 1, s => by
    cases hc : conv (stepf s) with
    | true =>
      simp only [newton_loop, hc, if_true]
      refine ⟨by omega, by rw [Function.iterate_one], ?_⟩
      constructor
      · intro h
        exact ⟨1, le_refl _, h, by rwa [Function.iterate_one]⟩
      · rintro ⟨i, h1, h2, _⟩
        omega
    | false =>
      have ih := newton_loop_spec stepf conv n (stepf s)
      have hred : newton_loop stepf conv (n + 1) s =
          ((newton_loop stepf conv n (stepf s)).1,
            (newton_loop stepf conv n (stepf s)).2 + 1) := by
        simp [newton_loop, hc]
      rw [hred]
      refine ⟨Nat.succ_le_succ ih.1, ?_, ?_⟩
      · show (newton_loop stepf conv n (stepf s)).1 =
          stepf^[(newton_loop stepf conv n (stepf s)).2 + 1] s
        rw [Function.iterate_succ_apply]
        exact ih.2.1
      · show (newton_loop stepf conv n (stepf s)).2 + 1 < n + 1 ↔ _
        rw [Nat.add_lt_add_iff_right, ih.2.2]
        constructor
        · rintro ⟨i, h1, h2, h3⟩
          exact ⟨i + 1, by omega, by omega, by rwa [Function.iterate_succ_apply]⟩
        · rintro ⟨j, h1, h2, h3⟩
          obtain ⟨i, rfl⟩ : ∃ i, j = i + 1 := ⟨j - 1, by omega⟩
          rw [Function.iterate_succ_apply] at h3
          have hi1 : 1 ≤ i := by
            by_contra hik
            have : i = 0 := by omega
            subst this
            rw [Function.iterate_zero_apply] at h3
            rw [hc] at h3
            exact Bool.false_ne_true h3
          exact ⟨i, hi1, by omega, h3⟩

/-- C6: for every output column, the Newton loop of `RMT._solve` executes at
most `max_nln_iter` iterations; the stored coefficient column is the last
accepted iterate (the step function iterated count times from the bootstrap
solution), and no exception interrupts an exhausted budget (`RMT.solve` is a
total function); the budget is underrun exactly when the gradient norm
recomputed after a line-search step drops below `1e-16` within the budget
(stated on the exact rational square: `norm < 10⁻¹⁶ ↔ norm² < 10⁻³²`). -/
theorem C6_newton_budget {m : ℕ}
    (solveLin : Matrix (Fin m) (Fin m) ℚ → Vec m → Vec m)
    (ls : Vec m → Vec m → (Vec m → ℚ) → (Vec m → Vec m) → Vec m)
    (p : ℕ) (full_hess : Matrix (Fin m) (Fin m) ℚ) (blocks : List (Blk m)) (maxIter : ℕ) :
    (solve solveLin ls p full_hess blocks maxIter).2 ≤ maxIter ∧
    (solve solveLin ls p full_hess blocks maxIter).1 =
      (newton_step solveLin ls p full_hess blocks)^[(solve solveLin ls p full_hess blocks maxIter).2]
        (bootstrap_sol solveLin full_hess blocks) ∧
    ((solve solveLin ls p full_hess blocks maxIter).2 < maxIter ↔
      ∃ i, 1 ≤ i ∧ i < maxIter ∧
        opt_norm_sq
          ((newton_step solveLin ls p full_hess blocks)^[i]
            (bootstrap_sol solveLin full_hess blocks)) p full_hess blocks < 1 / 10 ^ 32) := by
  have h := newton_loop_spec (newton_step solveLin ls p full_hess blocks)
    (conv_check p full_hess blocks) maxIter (bootstrap_sol solveLin full_hess blocks)
  simpa [solve, conv_check] using h

/-- With a budget of exactly one iteration, the Newton loop always executes
exactly one iteration. -/
theorem newton_loop_one {σ : Type} (stepf : σ → σ) (conv : σ → Bool) (s : σ) :
    (newton_loop stepf conv 1 s).2 = 1 := by
  have h := newton_loop_spec stepf conv 1 s
  have h2 : ¬(newton_loop stepf conv 1 s).2 < 1 := by
    rw [h.2.2]
    rintro ⟨i, h1, h2, _⟩
    omega
  omega

/-- C1 counterexample: with `approx_norm = 2`, `max_nln_iter = 1` and a
concrete one-dof configuration (pass-through linear solver, full-step line
search, no data blocks, the default `reg_dv = 1e-10` Hessian), `RMT._solve`
executes one Newton iteration, not zero: the loop entry in the source tests
only `max_nln_iter`, never `approx_norm`. -/
theorem C1_counterexample :
    (solve (m := 1) (fun _ r => r) (fun x d _ _ => x + d) 2
      (Matrix.diagonal fun _ => (1 : ℚ)/10 ^ 10) [] 1).2 = 1 :=
  newton_loop_one _ _ _

/-- C1 (amended): with `approx_norm = 2` the Newton loop is NOT skipped: the
loop entry depends only on `max_nln_iter`, so whenever `max_nln_iter > 0` at
least one Newton iteration executes after the bootstrap solve; the bootstrap
solve alone determines the coefficient column only when `max_nln_iter = 0` or
when the subsequent iterations leave it fixed. -/
theorem C1_newton_not_skipped {m : ℕ}
    (solveLin : Matrix (Fin m) (Fin m) ℚ → Vec m → Vec m)
    (ls : Vec m → Vec m → (Vec m → ℚ) → (Vec m → Vec m) → Vec m)
    (full_hess : Matrix (Fin m) (Fin m) ℚ) (blocks : List (Blk m)) (maxIter : ℕ)
    (h : 0 < maxIter) :
    1 ≤ (solve solveLin ls 2 full_hess blocks maxIter).2 := by
  obtain ⟨n, rfl⟩ : ∃ n, maxIter = n + 1 := ⟨maxIter - 1, by omega⟩
  rw [solve]
  simp only [newton_loop]
  split
  · exact le_refl _
  · omega

/-- Witness for C1 (amended) at the counterexample's concrete configuration. -/
theorem C1_newton_not_skipped_witness :
    0 < 1 ∧ 1 ≤ (solve (m := 1) (fun _ r => r) (fun x d _ _ => x + d) 2
      (Matrix.diagonal fun _ => (1 : ℚ)/10 ^ 10) [] 1).2 :=
  ⟨Nat.one_pos, C1_newton_not_skipped _ _ _ _ 1 Nat.one_pos⟩

/-! ### The evaluator (`RMT.evaluate`)

For one call we fix the query points `x` and model the external collaborators
as functions: `jacf kx idx` is the dense form of the sparse matrix returned by
`self._compute_jac(kx, idx, x)` (with `kx` the Python argument: `None` or an
integer), and `dx` is the offset matrix returned by
`RMTSlib.compute_ext_dist` (row `i` is the vector from the nearest domain
point to query point `i`; zero for interior points).  Python exceptions
raised inside the extrapolation loop become `Except` errors:
`isexternal[:, kx-1]` with `kx = None` is a `TypeError`, and with an
out-of-range integer an `IndexError`. -/

/-- Result of a Python runtime failure inside `RMT.evaluate`. -/
inductive EvalErr : Type
  | typeError : EvalErr
  | indexError : EvalErr
deriving DecidableEq

/-- `isexternal = np.array(np.array(dx, bool), float)`: 1 where the offset is
nonzero, 0 where it is zero. -/
def isexternal {n nx : ℕ} (dx : Matrix (Fin n) (Fin nx) ℚ) (i : Fin n) (j : Fin nx) : ℚ :=
  if dx i j = 0 then 0 else 1

/-- One pass of the extrapolation loop body of `RMT.evaluate` for dimension
`ix`: scale the first-order Jacobian `_compute_jac(kx, ix+1, x)` by the
offset column `dx[:, ix]`, then, whenever the Python test `kx != 0` succeeds,
multiply by `1 - isexternal[:, kx-1]` (a `TypeError` for `kx = None`, an
`IndexError` for `kx - 1 ≥ nx`). -/
def ext_step {nx n m : ℕ} (jacf : Option ℕ → ℕ → Matrix (Fin n) (Fin m) ℚ)
    (dx : Matrix (Fin n) (Fin nx) ℚ) (kx : Option ℕ) (ix : Fin nx) :
    Except EvalErr (Matrix (Fin n) (Fin m) ℚ) :=
  let t : Matrix (Fin n) (Fin m) ℚ := Matrix.of fun i j => jacf kx (ix.1 + 1) i j * dx i ix
  match kx with
  | some 0 => .ok t
  | some (k + 1) =>
    if h : k < nx then
      .ok (Matrix.of fun i j => t i j * (1 - isexternal dx i ⟨k, h⟩))
    else .error .indexError
  | none => .error .typeError

/-- `RMT.evaluate` for a fixed query-point set: build the order-0 Jacobian;
when `extrapolate` is set, add the first-order correction term of every
dimension (the loop `for ix in range(num['x'])`); finally multiply by the
coefficient column. -/
def evaluate {nx n m : ℕ} (jacf : Option ℕ → ℕ → Matrix (Fin n) (Fin m) ℚ)
    (dx : Matrix (Fin n) (Fin nx) ℚ) (sol : Vec m) (extrapolate : Bool)
    (kx : Option ℕ) : Except EvalErr (Vec n) :=
  if extrapolate then
    match (List.finRange nx).foldlM
        (fun acc ix => (ext_step jacf dx kx ix).map (fun t => acc + t)) (jacf kx 0) with
    | .error e => .error e
    | .ok d => .ok (d.mulVec sol)
  else .ok ((jacf kx 0).mulVec sol)

/-- Error raised by the surrogate-model state machine. -/
inductive SMErr : Type
  | notFitted : SMErr
deriving DecidableEq

/-- Modelled from the spec: the `UNFITTED → FITTING → FITTED` state machine
and the `NotFittedError` guard live in the `SM` base class (`smt/sm.py`),
which is not under `src/`; per the spec, `evaluate` invoked from `UNFITTED`
fails with `NotFittedError`.  The fitted state is modelled as an optional
coefficient column: `none` before the first successful fit. -/
def evaluate_guarded {nx n m : ℕ} (fitted : Option (Vec m))
    (jacf : Option ℕ → ℕ → Matrix (Fin n) (Fin m) ℚ)
    (dx : Matrix (Fin n) (Fin nx) ℚ) (extrapolate : Bool) (kx : Option ℕ) :
    Except (SMErr ⊕ EvalErr) (Vec n) :=
  match fitted with
  | none => .error (.inl .notFitted)
  | some sol =>
    match evaluate jacf dx sol extrapolate kx with
    | .error e => .error (.inr e)
    | .ok y => .ok y

/-- C8: calling `evaluate` on a model on which no successful fit has completed
(state `UNFITTED`, i.e. no stored coefficient vector) fails with
`NotFittedError`, for every query-point set, extrapolation setting and
derivative index. -/
theorem C8_not_fitted {nx n m : ℕ} (jacf : Option ℕ → ℕ → Matrix (Fin n) (Fin m) ℚ)
    (dx : Matrix (Fin n) (Fin nx) ℚ) (extrapolate : Bool) (kx : Option ℕ) :
    evaluate_guarded (m := m) none jacf dx extrapolate kx = .error (.inl .notFitted) := rfl

/-- With `kx = 0` every pass of the extrapolation loop succeeds, so the whole
fold does. -/
theorem ext_fold_ok {nx n m : ℕ} (jacf : Option ℕ → ℕ → Matrix (Fin n) (Fin m) ℚ)
    (dx : Matrix (Fin n) (Fin nx) ℚ) :
    ∀ (l : List (Fin nx)) (acc : Matrix (Fin n) (Fin m) ℚ),
      ∃ D, l.foldlM
        (fun acc ix => (ext_step jacf dx (some 0) ix).map (fun t => acc + t)) acc = .ok D
  | [], acc => ⟨acc, rfl⟩
  | ix :: l, acc => by
    obtain ⟨D, hD⟩ := ext_fold_ok jacf dx l
      (acc + Matrix.of fun i j => jacf (some 0) (ix.1 + 1) i j * dx i ix)
    refine ⟨D, ?_⟩
    rw [List.foldlM_cons]
    exact hD

/-- C10: with extrapolation enabled and at least one input dimension, calling
`evaluate` with `kx = None` — the documented way to request function values —
enters the masking branch (Python `None != 0` holds) and evaluating
`isexternal[:, kx-1]` with `kx = None` is a `TypeError` rather than a returned
prediction; function values under extrapolation are only reachable through
`kx = 0`, which does return a prediction, contradicting the documented `None`
convention. -/
theorem C10_none_type_error {nx n m : ℕ} (hnx : 0 < nx)
    (jacf : Option ℕ → ℕ → Matrix (Fin n) (Fin m) ℚ)
    (dx : Matrix (Fin n) (Fin nx) ℚ) (sol : Vec m) :
    evaluate jacf dx sol true none = .error .typeError ∧
    ∃ y, evaluate jacf dx sol true (some 0) = .ok y := by
  constructor
  · obtain ⟨k, rfl⟩ : ∃ k, nx = k + 1 := ⟨nx - 1, by omega⟩
    rw [evaluate, if_pos rfl, List.finRange_succ, List.foldlM_cons]
    rfl
  · obtain ⟨D, hD⟩ := ext_fold_ok jacf dx (List.finRange nx) (jacf (some 0) 0)
    exact ⟨D.mulVec sol, by rw [evaluate, if_pos rfl, hD]⟩

/-- Witness for C10 on a concrete one-dimensional instance. -/
theorem C10_none_type_error_witness :
    0 < 1 ∧
    (@evaluate 1 1 1 (fun _ _ => Matrix.of fun _ _ => (1 : ℚ))
        (Matrix.of fun _ _ => (0 : ℚ)) (fun _ => 1) true none = .error .typeError ∧
      ∃ y, @evaluate 1 1 1 (fun _ _ => Matrix.of fun _ _ => (1 : ℚ))
        (Matrix.of fun _ _ => (0 : ℚ)) (fun _ => 1) true (some 0) = .ok y) :=
  ⟨Nat.one_pos, C10_none_type_error Nat.one_pos _ _ _⟩

/-- If every offset of query point `i` is zero, the folded extrapolation
corrections leave row `i` of the Jacobian unchanged. -/
theorem ext_fold_row_fixed {nx n m : ℕ} (jacf : Option ℕ → ℕ → Matrix (Fin n) (Fin m) ℚ)
    (dx : Matrix (Fin n) (Fin nx) ℚ) (kx : Option ℕ) (i : Fin n) (hz : ∀ j, dx i j = 0) :
    ∀ (l : List (Fin nx)) (acc D : Matrix (Fin n) (Fin m) ℚ),
      l.foldlM (fun acc ix => (ext_step jacf dx kx ix).map (fun t => acc + t)) acc = .ok D →
      ∀ c, D i c = acc i c
  | [], acc, D, h => by
    intro c
    simp only [List.foldlM_nil] at h
    cases h
    rfl
  | ix :: l, acc, D, h => by
    intro c
    rw [List.foldlM_cons] at h
    cases hstep : ext_step jacf dx kx ix with
    | error e =>
      rw [hstep] at h
      cases h
    | ok t =>
      rw [hstep] at h
      have hrest : l.foldlM
          (fun acc ix => (ext_step jacf dx kx ix).map (fun t => acc + t)) (acc + t) = .ok D := h
      have hrec := ext_fold_row_fixed jacf dx kx i hz l (acc + t) D hrest c
      have ht : t i c = 0 := by
        cases kx with
        | none => exact absurd hstep (by simp [ext_step])
        | some k =>
          cases k with
          | zero =>
            simp only [ext_step] at hstep
            cases hstep
            simp [hz ix]
          | succ k =>
            simp only [ext_step] at hstep
            split at hstep
            · cases hstep
              simp [hz ix]
            · cases hstep
      rw [hrec]
      simp [ht]

/-- C9: for every fitted model and every query point whose offset vector is
zero (in particular a point exactly on the domain boundary), whenever
`evaluate` with extrapolation enabled returns a prediction, it agrees at that
point with the prediction of `evaluate` with extrapolation disabled. -/
theorem C9_zero_offset_agrees {nx n m : ℕ}
    (jacf : Option ℕ → ℕ → Matrix (Fin n) (Fin m) ℚ)
    (dx : Matrix (Fin n) (Fin nx) ℚ) (sol : Vec m) (kx : Option ℕ) (i : Fin n)
    (hz : ∀ j, dx i j = 0) (y : Vec n)
    (hok : evaluate jacf dx sol true kx = .ok y) :
    evaluate jacf dx sol false kx = .ok ((jacf kx 0).mulVec sol) ∧
    y i = ((jacf kx 0).mulVec sol) i := by
  refine ⟨rfl, ?_⟩
  rw [evaluate, if_pos rfl] at hok
  cases hf : (List.finRange nx).foldlM
      (fun acc ix => (ext_step jacf dx kx ix).map (fun t => acc + t)) (jacf kx 0) with
  | error e =>
    rw [hf] at hok
    cases hok
  | ok D =>
    rw [hf] at hok
    cases hok
    have hrow := ext_fold_row_fixed jacf dx kx i hz (List.finRange nx) (jacf kx 0) D hf
    simp only [Matrix.mulVec, Matrix.dotProduct]
    exact Finset.sum_congr rfl fun c _ => by rw [hrow c]

/-- Witness for C9: with zero input dimensions the offset hypothesis is
vacuous and the extrapolated evaluation trivially succeeds. -/
theorem C9_zero_offset_agrees_witness :
    (∀ j : Fin 0, (Matrix.of fun _ j => (j.elim0 : ℚ) : Matrix (Fin 1) (Fin 0) ℚ) 0 j = 0) ∧
    @evaluate 0 1 1 (fun _ _ => Matrix.of fun _ _ => (1 : ℚ))
        (Matrix.of fun _ j => j.elim0) (fun _ => 1) true (some 0) =
      .ok ((Matrix.of fun _ _ => (1 : ℚ) : Matrix (Fin 1) (Fin 1) ℚ).mulVec fun _ => 1) ∧
    (@evaluate 0 1 1 (fun _ _ => Matrix.of fun _ _ => (1 : ℚ))
        (Matrix.of fun _ j => j.elim0) (fun _ => 1) false (some 0) =
      .ok ((Matrix.of fun _ _ => (1 : ℚ) : Matrix (Fin 1) (Fin 1) ℚ).mulVec fun _ => 1) ∧
    ((Matrix.of fun _ _ => (1 : ℚ) : Matrix (Fin 1) (Fin 1) ℚ).mulVec fun _ => 1) 0 =
      ((Matrix.of fun _ _ => (1 : ℚ) : Matrix (Fin 1) (Fin 1) ℚ).mulVec fun _ => 1) 0) :=
  ⟨fun j => j.elim0, rfl,
    C9_zero_offset_agrees _ _ _ (some 0) 0 (fun j => j.elim0) _ rfl⟩

/-- C2 counterexample: two input dimensions, one query point external in both;
requesting the derivative with respect to dimension 0 (`kx = 1` in the
source's 1-based extrapolation indexing).  The first-order correction term of
dimension 1 — a dimension other than kx — is zeroed by the code (its produced
entry is 0) even though its own offset-scaled value is 1, because the source
multiplies EVERY dimension's correction term by `1 - isexternal[:, kx-1]`:
the claim that no other dimension's correction term is zeroed is false. -/
theorem C2_counterexample :
    ∃ t, @ext_step 2 1 1
        (fun _ _ => Matrix.of fun _ _ => (1 : ℚ)) (Matrix.of fun _ _ => (1 : ℚ))
        (some 1) 1 = .ok t ∧
      t 0 0 = 0 ∧
      ((fun _ _ => Matrix.of fun _ _ => (1 : ℚ)) (some 1) 2 : Matrix (Fin 1) (Fin 1) ℚ) 0 0 *
        (Matrix.of fun _ _ => (1 : ℚ) : Matrix (Fin 1) (Fin 2) ℚ) 0 1 = 1 := by
  refine ⟨_, rfl, ?_, by norm_num⟩
  show ((1 : ℚ) * 1) * (1 - isexternal (Matrix.of fun _ _ => (1 : ℚ)) 0 ⟨0, by omega⟩) = 0
  norm_num [isexternal]

/-- C2 (amended): in `evaluate` with extrapolation enabled, when the requested
output is a derivative (`kx ≥ 1`, mask dimension `kx-1 < nx`), EVERY
dimension's first-order correction term — not only dimension kx's — is zeroed
at those query points whose offset along the mask dimension is nonzero, while
at points whose offset along the mask dimension is zero each correction term
keeps its offset-scaled value, before the corrected Jacobian is multiplied by
the coefficient vector. -/
theorem C2_zeroing_all_dims {nx n m : ℕ}
    (jacf : Option ℕ → ℕ → Matrix (Fin n) (Fin m) ℚ)
    (dx : Matrix (Fin n) (Fin nx) ℚ) (k : ℕ) (hk : k < nx) (ix : Fin nx)
    (i : Fin n) (j : Fin m) :
    ∃ t, ext_step jacf dx (some (k + 1)) ix = .ok t ∧
      (dx i ⟨k, hk⟩ ≠ 0 → t i j = 0) ∧
      (dx i ⟨k, hk⟩ = 0 → t i j = jacf (some (k + 1)) (ix.1 + 1) i j * dx i ix) := by
  refine ⟨Matrix.of fun i j =>
      (jacf (some (k + 1)) (ix.1 + 1) i j * dx i ix) * (1 - isexternal dx i ⟨k, hk⟩),
    ?_, ?_, ?_⟩
  · simp only [ext_step]
    rw [dif_pos hk]
    rfl
  · intro hne
    simp [isexternal, hne]
  · intro heq
    simp [isexternal, heq]

/-- Witness for C2 (amended) at the counterexample's concrete configuration. -/
theorem C2_zeroing_all_dims_witness :
    0 < 2 ∧
    ∃ t, @ext_step 2 1 1
        (fun _ _ => Matrix.of fun _ _ => (1 : ℚ)) (Matrix.of fun _ _ => (1 : ℚ))
        (some (0 + 1)) 1 = .ok t ∧
      ((Matrix.of fun _ _ => (1 : ℚ) : Matrix (Fin 1) (Fin 2) ℚ) 0 ⟨0, by omega⟩ ≠ 0 →
        t 0 0 = 0) ∧
      ((Matrix.of fun _ _ => (1 : ℚ) : Matrix (Fin 1) (Fin 2) ℚ) 0 ⟨0, by omega⟩ = 0 →
        t 0 0 = (fun _ _ => Matrix.of fun _ _ => (1 : ℚ) : Option ℕ → ℕ →
            Matrix (Fin 1) (Fin 1) ℚ) (some (0 + 1)) ((1 : Fin 2).1 + 1) 0 0 *
          (Matrix.of fun _ _ => (1 : ℚ) : Matrix (Fin 1) (Fin 2) ℚ) 0 1) :=
  ⟨by omega, C2_zeroing_all_dims _ _ 0 (by omega) 1 0 0⟩

/-! ### The approximation-term builder (`RMT._compute_approx_terms`) -/

/-- Fatal domain-violation error.  The source realizes it as a failed `assert`
whose message names the offending derivative order `kx` (`'Training pts
below min for %s' % kx`); the spec's error taxonomy names it
`OutOfDomainError`. -/
inductive DomainError : Type
  | outOfDomain (kx : ℕ) : DomainError
deriving DecidableEq

/-- One entry of `training_pts['exact']`: the derivative order `kx` and, for
it, `k+1 ≥ 1` training points `xt` with their target column `yt`
(`np.min`/`np.max` over the points require at least one point). -/
abbrev TrainBlk (nx : ℕ) := ℕ × Σ k : ℕ, Matrix (Fin k.succ) (Fin nx) ℚ × (Fin k.succ → ℚ)

/-- The bounds assertions of `RMT._compute_approx_terms` for one block:
`np.all(xlimits[:, 0] <= np.min(xt, axis=0))` and
`np.all(xlimits[:, 1] >= np.max(xt, axis=0))`. -/
def check_domain {nx k : ℕ} (xlimits : Fin nx → ℚ × ℚ)
    (xt : Matrix (Fin k.succ) (Fin nx) ℚ) : Bool :=
  (decide (∀ d, (xlimits d).1 ≤ Finset.univ.inf' Finset.univ_nonempty (fun i => xt i d))) &&
  (decide (∀ d, Finset.univ.sup' Finset.univ_nonempty (fun i => xt i d) ≤ (xlimits d).2))

/-- `RMT._compute_approx_terms`: loop over the training orders; check the
domain-bounds assertions for each, then request the Jacobian from the
external assembly kernel (`self._compute_jac(kx, 0, xt)`, modelled by `jacf`)
and record it with its target column.  A failed assertion aborts the builder
with the error naming that block's order. -/
def compute_approx_terms {nx m : ℕ} (xlimits : Fin nx → ℚ × ℚ)
    (jacf : ℕ → (k : ℕ) → Matrix (Fin k.succ) (Fin nx) ℚ → Matrix (Fin k.succ) (Fin m) ℚ) :
    List (TrainBlk nx) → Except DomainError (List (Blk m))
  | [] => .ok []
  | b :: rest =>
    if check_domain xlimits b.2.2.1 then
      match compute_approx_terms xlimits jacf rest with
      | .error e => .error e
      | .ok l => .ok (⟨b.2.1.succ, jacf b.1 b.2.1 b.2.2.1, b.2.2.2⟩ :: l)
    else .error (.outOfDomain b.1)

/-- A training block violating the domain bounds: some point of the block has
a coordinate strictly below the lower or strictly above the upper bound of
its dimension. -/
def out_of_bounds {nx : ℕ} (xlimits : Fin nx → ℚ × ℚ) (b : TrainBlk nx) : Prop :=
  ∃ i d, b.2.2.1 i d < (xlimits d).1 ∨ (xlimits d).2 < b.2.2.1 i d

/-- Modelled from the spec: the fit orchestration (`SM.fit` driving
`RMT._fit`) is not under `src/`; per the spec the approximation-term builder
runs exactly once per fit, before the bootstrap solve and the Newton loop.
We model `fit` as running the builder and, only on success, the per-column
solve driver, returning the result together with a count of the linear solves
performed (one bootstrap solve plus one per executed Newton iteration). -/
def fit_model {nx m : ℕ} (xlimits : Fin nx → ℚ × ℚ)
    (jacf : ℕ → (k : ℕ) → Matrix (Fin k.succ) (Fin nx) ℚ → Matrix (Fin k.succ) (Fin m) ℚ)
    (solveLin : Matrix (Fin m) (Fin m) ℚ → Vec m → Vec m)
    (ls : Vec m → Vec m → (Vec m → ℚ) → (Vec m → Vec m) → Vec m)
    (p : ℕ) (full_hess : Matrix (Fin m) (Fin m) ℚ) (maxIter : ℕ)
    (train : List (TrainBlk nx)) : Except DomainError (Vec m) × ℕ :=
  match compute_approx_terms xlimits jacf train with
  | .error e => (.error e, 0)
  | .ok blocks =>
    (.ok (solve solveLin ls p full_hess blocks maxIter).1,
      1 + (solve solveLin ls p full_hess blocks maxIter).2)

/-- The per-block assertion fails exactly when some point of the block is
strictly outside the (inclusive) bounds in some dimension. -/
theorem check_domain_eq_false_iff {nx k : ℕ} (xlimits : Fin nx → ℚ × ℚ)
    (xt : Matrix (Fin k.succ) (Fin nx) ℚ) :
    check_domain xlimits xt = false ↔
      ∃ i d, xt i d < (xlimits d).1 ∨ (xlimits d).2 < xt i d := by
  simp only [check_domain, Bool.and_eq_false_iff, decide_eq_false_iff_not, not_forall, not_le]
  constructor
  · rintro (⟨d, hd⟩ | ⟨d, hd⟩)
    · obtain ⟨i, _, hi⟩ := (Finset.inf'_lt_iff Finset.univ_nonempty).mp hd
      exact ⟨i, d, Or.inl hi⟩
    · obtain ⟨i, _, hi⟩ := (Finset.lt_sup'_iff Finset.univ_nonempty).mp hd
      exact ⟨i, d, Or.inr hi⟩
  · rintro ⟨i, d, h | h⟩
    · exact Or.inl ⟨d, (Finset.inf'_lt_iff Finset.univ_nonempty).mpr ⟨i, Finset.mem_univ i, h⟩⟩
    · exact Or.inr ⟨d, (Finset.lt_sup'_iff Finset.univ_nonempty).mpr ⟨i, Finset.mem_univ i, h⟩⟩

/-- A builder failure names an order whose block is present and violating. -/
theorem compute_approx_terms_error_named {nx m : ℕ} (xlimits : Fin nx → ℚ × ℚ)
    (jacf : ℕ → (k : ℕ) → Matrix (Fin k.succ) (Fin nx) ℚ → Matrix (Fin k.succ) (Fin m) ℚ) :
    ∀ (train : List (TrainBlk nx)) (kx : ℕ),
      compute_approx_terms (m := m) xlimits jacf train = .error (.outOfDomain kx) →
      ∃ b ∈ train, b.1 = kx ∧ out_of_bounds xlimits b
  | [], kx, h => by simp [compute_approx_terms] at h
  | b :: rest, kx, h => by
    rw [compute_approx_terms] at h
    split at h
    next hc =>
      cases hrest : compute_approx_terms (m := m) xlimits jacf rest with
      | error e =>
        rw [hrest] at h
        cases h
        obtain ⟨b', hb', hbkx, hob⟩ :=
          compute_approx_terms_error_named xlimits jacf rest kx hrest
        exact ⟨b', List.mem_cons_of_mem _ hb', hbkx, hob⟩
      | ok l =>
        rw [hrest] at h
        cases h
    next hc =>
      cases h
      refine ⟨b, List.mem_cons_self _ _, rfl, ?_⟩
      have hfalse : check_domain xlimits b.2.2.1 = false := by simpa using hc
      exact (check_domain_eq_false_iff xlimits b.2.2.1).mp hfalse

/-- A violating block somewhere in the training set makes the builder fail. -/
theorem compute_approx_terms_violation_error {nx m : ℕ} (xlimits : Fin nx → ℚ × ℚ)
    (jacf : ℕ → (k : ℕ) → Matrix (Fin k.succ) (Fin nx) ℚ → Matrix (Fin k.succ) (Fin m) ℚ) :
    ∀ train : List (TrainBlk nx), (∃ b ∈ train, out_of_bounds xlimits b) →
      ∃ kx, compute_approx_terms (m := m) xlimits jacf train = .error (.outOfDomain kx)
  | [], h => by simp at h
  | b :: rest, h => by
    rw [compute_approx_terms]
    by_cases hc : check_domain xlimits b.2.2.1 = true
    · rw [if_pos hc]
      have hnb : ¬out_of_bounds xlimits b := by
        intro hob
        have hfalse := (check_domain_eq_false_iff xlimits b.2.2.1).mpr hob
        rw [hfalse] at hc
        exact Bool.false_ne_true hc
      obtain ⟨b', hb', hob⟩ := h
      rcases List.mem_cons.mp hb' with rfl | hmem
      · exact absurd hob hnb
      · obtain ⟨kx, hkx⟩ :=
          compute_approx_terms_violation_error xlimits jacf rest ⟨b', hmem, hob⟩
        rw [hkx]
        exact ⟨kx, rfl⟩
    · rw [if_neg hc]
      exact ⟨b.1, rfl⟩

/-- A failing `fit` comes from a failing builder (with zero solves). -/
theorem fit_model_error_of_eq {nx m : ℕ} (xlimits : Fin nx → ℚ × ℚ)
    (jacf : ℕ → (k : ℕ) → Matrix (Fin k.succ) (Fin nx) ℚ → Matrix (Fin k.succ) (Fin m) ℚ)
    (solveLin : Matrix (Fin m) (Fin m) ℚ → Vec m → Vec m)
    (ls : Vec m → Vec m → (Vec m → ℚ) → (Vec m → Vec m) → Vec m)
    (p : ℕ) (full_hess : Matrix (Fin m) (Fin m) ℚ) (maxIter : ℕ)
    (train : List (TrainBlk nx)) (kx : ℕ)
    (h : fit_model xlimits jacf solveLin ls p full_hess maxIter train =
      (.error (.outOfDomain kx), 0)) :
    compute_approx_terms (m := m) xlimits jacf train = .error (.outOfDomain kx) := by
  cases hcase : compute_approx_terms (m := m) xlimits jacf train with
  | error e =>
    have hfit : fit_model xlimits jacf solveLin ls p full_hess maxIter train =
        (.error e, 0) := by
      rw [fit_model, hcase]
    rw [hfit] at h
    injection h with h1 h2
    injection h1 with h3
    exact congrArg Except.error h3
  | ok l =>
    have hfit : fit_model xlimits jacf solveLin ls p full_hess maxIter train =
        (.ok (solve solveLin ls p full_hess l maxIter).1,
          1 + (solve solveLin ls p full_hess l maxIter).2) := by
      rw [fit_model, hcase]
    rw [hfit] at h
    exact absurd (congrArg Prod.fst h) (by simp)

/-- C5: `fit` fails with `OutOfDomainError` naming an offending order if and
only if some training block has a point with a coordinate strictly below the
lower or strictly above the upper bound of its dimension (bounds inclusive:
points exactly on a bound pass), every named order is present and violating,
and the failure occurs before any linear solve is attempted (the solve count
of a failing fit is zero). -/
theorem C5_domain_rejection {nx m : ℕ} (xlimits : Fin nx → ℚ × ℚ)
    (jacf : ℕ → (k : ℕ) → Matrix (Fin k.succ) (Fin nx) ℚ → Matrix (Fin k.succ) (Fin m) ℚ)
    (solveLin : Matrix (Fin m) (Fin m) ℚ → Vec m → Vec m)
    (ls : Vec m → Vec m → (Vec m → ℚ) → (Vec m → Vec m) → Vec m)
    (p : ℕ) (full_hess : Matrix (Fin m) (Fin m) ℚ) (maxIter : ℕ)
    (train : List (TrainBlk nx)) :
    ((∃ b ∈ train, out_of_bounds xlimits b) ↔
      ∃ kx, fit_model xlimits jacf solveLin ls p full_hess maxIter train =
        (.error (.outOfDomain kx), 0)) ∧
    (∀ kx, fit_model xlimits jacf solveLin ls p full_hess maxIter train =
        (.error (.outOfDomain kx), 0) →
      ∃ b ∈ train, b.1 = kx ∧ out_of_bounds xlimits b) := by
  constructor
  · constructor
    · intro hv
      obtain ⟨kx, hkx⟩ := compute_approx_terms_violation_error xlimits jacf train hv
      exact ⟨kx, by rw [fit_model, hkx]⟩
    · rintro ⟨kx, hkx⟩
      obtain ⟨b, hb, _, hob⟩ := compute_approx_terms_error_named xlimits jacf train kx
        (fit_model_error_of_eq xlimits jacf solveLin ls p full_hess maxIter train kx hkx)
      exact ⟨b, hb, hob⟩
  · intro kx hkx
    exact compute_approx_terms_error_named xlimits jacf train kx
      (fit_model_error_of_eq xlimits jacf solveLin ls p full_hess maxIter train kx hkx)

end RMT
